import Mathlib

/-!
Verification of the leetcode-chat browser extension core: the streaming
chat client (buffer-and-split line reducer), the scrape orchestrator,
the background message handler, the HTML content parser and the
structured-data / DOM extractors.  All definitions are shallow embeddings
of the TypeScript source files; platform functions (TextDecoder, DOMParser,
JSON.parse, chrome APIs) are factored out as explicit parameters or
environment records.
-/

/-- JavaScript whitespace test, restricted to the ASCII whitespace
characters that `String.prototype.trim` removes. -/
def wsCharB (c : Char) : Bool :=
  c = ' ' || c = '\t' || c = '\n' || c = '\r' || c = Char.ofNat 11 || c = Char.ofNat 12

/-- Trim JS-style whitespace from both ends of a character list. -/
def trimL (l : List Char) : List Char :=
  ((l.dropWhile wsCharB).reverse.dropWhile wsCharB).reverse

/-- Model of `String.prototype.trim`. -/
def jsTrim (s : String) : String := String.mk (trimL s.data)

/-- ASCII lower-casing of one character (model of `toLowerCase` on the
ASCII range used by the source). -/
def lowerChar (c : Char) : Char :=
  if 'A' ≤ c && c ≤ 'Z' then Char.ofNat (c.toNat + 32) else c

/-- ASCII upper-casing of one character. -/
def upperChar (c : Char) : Char :=
  if 'a' ≤ c && c ≤ 'z' then Char.ofNat (c.toNat - 32) else c

/-- Model of `String.prototype.toLowerCase` (ASCII). -/
def jsToLower (s : String) : String := String.mk (s.data.map lowerChar)

/-- Model of `String.prototype.toUpperCase` (ASCII), used for `tagName`. -/
def jsToUpper (s : String) : String := String.mk (s.data.map upperChar)

/-- Does list `l` start with list `p`? -/
def strStarts : List Char → List Char → Bool
  | _, [] => true
  | [], _ :: _ => false
  | c :: cs, p :: ps => c = p && strStarts cs ps

/-- Model of `String.prototype.includes`: does `l` contain `sub` as a
contiguous run? -/
def containsStr : List Char → List Char → Bool
  | [], sub => sub.isEmpty
  | s@(_ :: t), sub => strStarts s sub || containsStr t sub

/-- Model of `String.prototype.startsWith` on Lean strings. -/
def jsStartsWith (s p : String) : Bool := strStarts s.data p.data

/-- Model of `s.toLowerCase().includes(sub)` on Lean strings. -/
def jsContains (s sub : String) : Bool := containsStr s.data sub.data

/-- Join a list of strings with a separator (model of `Array.join`). -/
def joinSep (sep : String) : List String → String
  | [] => ""
  | [x] => x
  | x :: y :: rest => x ++ sep ++ joinSep sep (y :: rest)

/-- Is `c` in the lowercase-alphanumeric class `[a-z0-9]` used by `toSlug`? -/
def slugCharB (c : Char) : Bool :=
  ('a' ≤ c && c ≤ 'z') || ('0' ≤ c && c ≤ '9')

/-- Helper for `slugCollapse`: `inRun` records whether the previous
character was already part of a run outside `[a-z0-9]`. -/
def slugCollapseAux : Bool → List Char → List Char
  | _, [] => []
  | inRun, c :: rest =>
    if slugCharB c then c :: slugCollapseAux false rest
    else if inRun then slugCollapseAux true rest
    else '-' :: slugCollapseAux true rest

/-- Model of `.replace(/[^a-z0-9]+/g, '-')`: collapse every run of
characters outside `[a-z0-9]` to a single dash. -/
def slugCollapse (l : List Char) : List Char := slugCollapseAux false l

/-- Model of `.replace(/^-|-$/g, '')`: remove one leading and one
trailing dash. -/
def stripDashes (l : List Char) : List Char :=
  let l1 := match l with
    | '-' :: rest => rest
    | other => other
  match l1.getLast? with
  | some '-' => l1.dropLast
  | _ => l1

/-- `toSlug` from the content scripts: lowercase, collapse non-alphanumeric
runs to dashes, strip a leading and a trailing dash. -/
def toSlug (s : String) : String :=
  String.mk (stripDashes (slugCollapse (s.data.map lowerChar)))

/-- `normalizeDifficulty` from the content scripts.  The input covers the
JavaScript values `string | undefined | null`; `none` stands for
undefined/null, and the empty string is also falsy in the source's
`if (!value)` guard. -/
def normalizeDifficulty (value : Option String) : String :=
  match value with
  | none => "Medium"
  | some s =>
    if s = "" then "Medium"
    else
      let normalized := jsTrim s
      if normalized = "Easy" || normalized = "Medium" || normalized = "Hard" then normalized
      else "Medium"

/-- C8: every input whose trimmed value is outside the set
Easy/Medium/Hard (including the empty string, null, and undefined)
normalizes to Medium, and a trimmed exact match is returned unchanged. -/
theorem normalizeDifficulty_policy :
    normalizeDifficulty none = "Medium" ∧
    normalizeDifficulty (some "") = "Medium" ∧
    (∀ s : String, jsTrim s ≠ "Easy" → jsTrim s ≠ "Medium" → jsTrim s ≠ "Hard" →
      normalizeDifficulty (some s) = "Medium") ∧
    (∀ s : String, (jsTrim s = "Easy" ∨ jsTrim s = "Medium" ∨ jsTrim s = "Hard") →
      normalizeDifficulty (some s) = jsTrim s) := by
  refine ⟨rfl, rfl, ?_, ?_⟩
  · intro s h1 h2 h3
    by_cases hs : s = ""
    · simp [normalizeDifficulty, hs]
    · simp only [normalizeDifficulty, if_neg hs]
      simp [h1, h2, h3]
  · intro s h
    have hs : s ≠ "" := by
      intro hs
      subst hs
      have : jsTrim "" = "" := by decide
      rw [this] at h
      rcases h with h | h | h <;> exact absurd h (by decide)
    simp only [normalizeDifficulty, if_neg hs]
    rcases h with h | h | h <;> simp [h]

/-- Witness for C8 at concrete inputs. -/
theorem normalizeDifficulty_policy_witness :
    normalizeDifficulty (some "Unknown") = "Medium" ∧
    normalizeDifficulty (some " Easy ") = "Easy" := by
  constructor
  · exact normalizeDifficulty_policy.2.2.1 "Unknown" (by decide) (by decide) (by decide)
  · have := normalizeDifficulty_policy.2.2.2 " Easy " (Or.inl (by decide))
    rw [this]; decide

/-- C10: difficulty normalization is case-sensitive: a case-variant of a
valid label that is not an exact (trimmed) match normalizes to Medium,
not to the corresponding enum value. -/
theorem normalizeDifficulty_case_sensitive :
    ∀ s : String,
      (jsToLower (jsTrim s) = "easy" ∨ jsToLower (jsTrim s) = "medium" ∨
        jsToLower (jsTrim s) = "hard") →
      jsTrim s ≠ "Easy" → jsTrim s ≠ "Medium" → jsTrim s ≠ "Hard" →
      normalizeDifficulty (some s) = "Medium" := by
  intro s _ h1 h2 h3
  by_cases hs : s = ""
  · simp [normalizeDifficulty, hs]
  · simp only [normalizeDifficulty, if_neg hs]
    simp [h1, h2, h3]

/-- Witness for C10: the lowercase variant of Easy normalizes to Medium. -/
theorem normalizeDifficulty_case_sensitive_witness :
    normalizeDifficulty (some "easy") = "Medium" :=
  normalizeDifficulty_case_sensitive "easy" (Or.inl (by decide))
    (by decide) (by decide) (by decide)

/-!
## Streaming chat client (`streamChatRequest` in `client.ts`)

The stream body is modelled as a list of delivery chunks of decoded text
(character lists).  `TextDecoder` with `stream: true` emits whole
characters, so an arbitrary byte-level chunking of the UTF-8 encoding
induces exactly a character-boundary chunking of the decoded text.
`JSON.parse` is an explicit parameter `parse`; a JavaScript parse
exception is `Except.error`.
-/

/-- The `ChatResponse` payload as received on the wire: every field may be
absent (`undefined`). -/
structure RawChatResponse where
  success : Option Bool
  answer : Option String
  summary : Option String
  sources : Option (List String)
  error : Option String
deriving DecidableEq

/-- A normalized `ChatResponse` as produced by `normalizeChatResponse`. -/
structure ChatResponse where
  success : Bool
  answer : String
  summary : String
  sources : List String
  error : Option String
deriving DecidableEq

/-- `normalizeChatResponse` from `client.ts`: fill in defaults with `??`. -/
def normalizeChatResponse (p : RawChatResponse) : ChatResponse :=
  ⟨p.success.getD true, p.answer.getD "", p.summary.getD "", p.sources.getD [], p.error⟩

/-- The tagged union of stream events (`ChatStreamEvent`). -/
inductive ChatStreamEvent where
  | token (tok : String)
  | sources (s : List String)
  | summary (text : String)
  | endEvent (payload : RawChatResponse)
  | cached (payload : RawChatResponse)
  | errorEvent (err : Option String)
deriving DecidableEq

/-- The mutable state of the read loop in `streamChatRequest`: the log of
`handleEvent` invocations, the captured `finalPayload`, and the pending
exception (a thrown error aborts all later processing). -/
structure ChatLoopState where
  events : List ChatStreamEvent
  finalPayload : Option ChatResponse
  thrown : Option String

/-- The body of the per-line event dispatch in `streamChatRequest`:
`handleEvent(event)` followed by the `end`/`cached`/`error` switch. -/
def applyEvent (st : ChatLoopState) (e : ChatStreamEvent) : ChatLoopState :=
  let st1 : ChatLoopState := { st with events := st.events ++ [e] }
  match e with
  | .endEvent p => { st1 with finalPayload := some (normalizeChatResponse p) }
  | .cached p => { st1 with finalPayload := some (normalizeChatResponse p) }
  | .errorEvent m => { st1 with thrown := some (m.getD "Unknown error from stream.") }
  | _ => st1

/-- Guarded step: once an exception is pending the loop has exited, so no
further event is processed. -/
def stepEvent (st : ChatLoopState) (e : ChatStreamEvent) : ChatLoopState :=
  if st.thrown.isSome then st else applyEvent st e

/-- Processing of one split-off line: skip blank lines
(`if (!line.trim()) continue`), then `JSON.parse` and dispatch.  The same
code shape also handles the final buffered fragment, whose guard
`if (buffer.trim())` is the identical condition. -/
def processLine (parse : List Char → Except String ChatStreamEvent)
    (st : ChatLoopState) (line : List Char) : ChatLoopState :=
  if st.thrown.isSome then st
  else if trimL line = [] then st
  else
    match parse line with
    | .error m => { st with thrown := some m }
    | .ok e => applyEvent st e

/-- Model of `buffer.split('\n')` on character lists: always returns a
non-empty list of fragments; splitting the empty string gives one empty
fragment, exactly as in JavaScript. -/
def jsSplitNl : List Char → List (List Char)
  | [] => [[]]
  | c :: cs =>
    let r := jsSplitNl cs
    if c = '\n' then [] :: r
    else (c :: r.headD []) :: r.tail

/-- The trailing fragment kept in the buffer (`lines.pop() ?? ''`). -/
def lastFrag (ls : List (List Char)) : List Char := ls.getLastD []

/-- The chunk loop of `streamChatRequest`: append the decoded chunk to the
buffer, split on newline, process every complete line, keep the trailing
fragment. -/
def runChunks (parse : List Char → Except String ChatStreamEvent)
    (st : ChatLoopState) (buffer : List Char) :
    List (List Char) → ChatLoopState × List Char
  | [] => (st, buffer)
  | c :: rest =>
    let lines := jsSplitNl (buffer ++ c)
    runChunks parse (lines.dropLast.foldl (processLine parse) st) (lastFrag lines) rest

/-- The observable behaviour of one `streamChatRequest` call: the sequence
of events handed to `handleEvent`, and the value the promise settles
with. -/
structure RunResult where
  events : List ChatStreamEvent
  result : Except String ChatResponse

/-- The tail of `streamChatRequest`: a pending exception rejects, a
captured final payload resolves, and a clean close without one rejects
with the fixed message. -/
def chatOutcome (st : ChatLoopState) : Except String ChatResponse :=
  match st.thrown with
  | some m => .error m
  | none =>
    match st.finalPayload with
    | some p => .ok p
    | none => .error "Chat stream completed without a final payload."

/-- The close of the stream: flush the trailing buffered fragment through
the same line dispatch, then settle the promise. -/
def chatFinish (parse : List Char → Except String ChatStreamEvent)
    (sc : ChatLoopState × List Char) : RunResult :=
  ⟨(processLine parse sc.1 sc.2).events, chatOutcome (processLine parse sc.1 sc.2)⟩

/-- Full model of `streamChatRequest` on a successfully opened stream:
run the chunk loop from an empty buffer, flush the trailing fragment,
then settle. -/
def streamChatModel (parse : List Char → Except String ChatStreamEvent)
    (chunks : List (List Char)) : RunResult :=
  chatFinish parse (runChunks parse ⟨[], none, none⟩ [] chunks)

theorem jsSplitNl_ne_nil (l : List Char) : jsSplitNl l ≠ [] := by
  cases l with
  | nil => simp [jsSplitNl]
  | cons c cs =>
    simp only [jsSplitNl]
    split <;> simp

theorem jsSplitNl_no_nl (l : List Char) (h : '\n' ∉ l) : jsSplitNl l = [l] := by
  induction l with
  | nil => rfl
  | cons c cs ih =>
    simp only [List.mem_cons, not_or] at h
    simp only [jsSplitNl]
    rw [if_neg (fun hc => h.1 hc.symm), ih h.2]
    rfl

theorem lastFrag_cons (x : List Char) (l : List (List Char)) (h : l ≠ []) :
    lastFrag (x :: l) = lastFrag l := by
  cases l with
  | nil => exact absurd rfl h
  | cons y ys => simp [lastFrag, List.getLastD_cons]


theorem jsSplitNl_nil : jsSplitNl [] = [[]] := rfl

theorem jsSplitNl_cons_nl (cs : List Char) :
    jsSplitNl ('\n' :: cs) = [] :: jsSplitNl cs := by
  simp [jsSplitNl]

theorem jsSplitNl_cons_ne (c : Char) (cs : List Char) (hc : c ≠ '\n') :
    jsSplitNl (c :: cs) =
      (c :: (jsSplitNl cs).headD []) :: (jsSplitNl cs).tail := by
  simp [jsSplitNl, hc]

theorem jsSplitNl_cons_eq (c : Char) (cs : List Char) (h1 : List Char)
    (t : List (List Char)) (hc : c ≠ '\n') (hr : jsSplitNl cs = h1 :: t) :
    jsSplitNl (c :: cs) = (c :: h1) :: t := by
  rw [jsSplitNl_cons_ne c cs hc, hr]
  rfl

theorem lastFrag_singleton (x : List Char) : lastFrag [x] = x := rfl

theorem lastFrag_append (xs ys : List (List Char)) (h : ys ≠ []) :
    lastFrag (xs ++ ys) = lastFrag ys := by
  induction xs with
  | nil => rfl
  | cons x xs ih =>
    rw [List.cons_append, lastFrag_cons _ _ (by simp [h]), ih]

theorem lastFrag_no_nl (l : List Char) : '\n' ∉ lastFrag (jsSplitNl l) := by
  induction l with
  | nil => simp [jsSplitNl_nil, lastFrag_singleton]
  | cons c cs ih =>
    by_cases hc : c = '\n'
    · subst hc
      rw [jsSplitNl_cons_nl, lastFrag_cons _ _ (jsSplitNl_ne_nil cs)]
      exact ih
    · rcases hr : jsSplitNl cs with _ | ⟨h1, t⟩
      · exact absurd hr (jsSplitNl_ne_nil cs)
      · rw [jsSplitNl_cons_eq c cs h1 t hc hr]
        rw [hr] at ih
        cases t with
        | nil =>
          rw [lastFrag_singleton]
          rw [lastFrag_singleton] at ih
          simp only [List.mem_cons, not_or]
          exact ⟨fun h2 => hc h2.symm, ih⟩
        | cons h2 t2 =>
          rw [lastFrag_cons _ _ (by simp)]
          rw [lastFrag_cons _ _ (by simp)] at ih
          exact ih

theorem jsSplitNl_append (a b : List Char) :
    jsSplitNl (a ++ b) =
      (jsSplitNl a).dropLast ++ jsSplitNl (lastFrag (jsSplitNl a) ++ b) := by
  induction a with
  | nil =>
    rw [List.nil_append, jsSplitNl_nil, List.dropLast_single,
      lastFrag_singleton, List.nil_append, List.nil_append]
  | cons c cs ih =>
    by_cases hc : c = '\n'
    · subst hc
      rw [List.cons_append, jsSplitNl_cons_nl, jsSplitNl_cons_nl,
        List.dropLast_cons_of_ne_nil (jsSplitNl_ne_nil cs),
        lastFrag_cons _ _ (jsSplitNl_ne_nil cs), List.cons_append, ih]
    · rcases hr : jsSplitNl cs with _ | ⟨h1, t⟩
      · exact absurd hr (jsSplitNl_ne_nil cs)
      · rw [hr] at ih
        cases t with
        | nil =>
          rw [List.cons_append, jsSplitNl_cons_ne c (cs ++ b) hc, ih,
            jsSplitNl_cons_eq c cs h1 [] hc hr, List.dropLast_single,
            lastFrag_singleton, List.nil_append, List.dropLast_single,
            List.nil_append, lastFrag_singleton, List.cons_append,
            jsSplitNl_cons_ne c (h1 ++ b) hc]
        | cons h2 t2 =>
          rw [List.cons_append, jsSplitNl_cons_ne c (cs ++ b) hc, ih,
            jsSplitNl_cons_eq c cs h1 (h2 :: t2) hc hr,
            List.dropLast_cons_of_ne_nil (l := h2 :: t2) (by simp),
            lastFrag_cons h1 (h2 :: t2) (by simp),
            List.dropLast_cons_of_ne_nil (l := h2 :: t2) (by simp),
            lastFrag_cons (c :: h1) (h2 :: t2) (by simp)]
          simp

theorem runChunks_join (parse : List Char → Except String ChatStreamEvent)
    (st : ChatLoopState) (buffer : List Char) (chunks : List (List Char))
    (hb : '\n' ∉ buffer) :
    runChunks parse st buffer chunks =
      ((jsSplitNl (buffer ++ chunks.flatten)).dropLast.foldl (processLine parse) st,
        lastFrag (jsSplitNl (buffer ++ chunks.flatten))) := by
  induction chunks generalizing st buffer with
  | nil =>
    simp only [List.flatten_nil, List.append_nil, runChunks]
    rw [jsSplitNl_no_nl buffer hb, List.dropLast_single, lastFrag_singleton]
    rfl
  | cons c rest ih =>
    simp only [runChunks]
    rw [ih _ _ (lastFrag_no_nl (buffer ++ c))]
    have happ : buffer ++ (c :: rest).flatten = (buffer ++ c) ++ rest.flatten := by
      simp [List.flatten_cons, List.append_assoc]
    rw [happ, jsSplitNl_append (buffer ++ c) rest.flatten]
    rw [List.dropLast_append_of_ne_nil _ (jsSplitNl_ne_nil _),
      lastFrag_append _ _ (jsSplitNl_ne_nil _), List.foldl_append]

/-- C1: feeding the buffer-and-split reducer the same decoded text in any
chunking produces the same `handleEvent` sequence and the same settled
value: `streamChatRequest` is invariant under re-chunking of the stream. -/
theorem streamChat_chunking_invariant
    (parse : List Char → Except String ChatStreamEvent)
    (cs1 cs2 : List (List Char)) (h : cs1.flatten = cs2.flatten) :
    streamChatModel parse cs1 = streamChatModel parse cs2 := by
  unfold streamChatModel
  rw [runChunks_join parse _ [] cs1 (by simp),
    runChunks_join parse _ [] cs2 (by simp), h]

/-- A concrete stand-in for `JSON.parse` used by the C1 witness: every
line parses to a token event carrying the line text. -/
def chunkParseA : List Char → Except String ChatStreamEvent :=
  fun l => .ok (.token (String.mk l))

/-- Witness for C1: two different chunkings of the same two-line text give
identical results. -/
theorem streamChat_chunking_invariant_witness :
    ([['a'], ['b', '\n', 'c']] : List (List Char)).flatten =
      ([['a', 'b', '\n'], ['c']] : List (List Char)).flatten ∧
    streamChatModel chunkParseA [['a'], ['b', '\n', 'c']] =
      streamChatModel chunkParseA [['a', 'b', '\n'], ['c']] :=
  ⟨rfl, streamChat_chunking_invariant chunkParseA _ _ rfl⟩

/-- The payload carried by a terminal success event (`end`/`cached`). -/
def termPayload : ChatStreamEvent → Option RawChatResponse
  | .endEvent p => some p
  | .cached p => some p
  | _ => none

/-- Is this an `error` event? -/
def isErrEvent : ChatStreamEvent → Bool
  | .errorEvent _ => true
  | _ => false

/-- Is this a `token` event? -/
def isTokenEvent : ChatStreamEvent → Bool
  | .token _ => true
  | _ => false

/-- Is this a terminal success event (`end` or `cached`)? -/
def isTermSuccess : ChatStreamEvent → Bool
  | .endEvent _ => true
  | .cached _ => true
  | _ => false

/-- The event dispatch of `streamChatRequest` run over an already-parsed
event sequence (every line decodes to one event); this is the loop body
of the source factored over events, see `processLine_parsed`. -/
def runEvents (es : List ChatStreamEvent) : ChatLoopState :=
  es.foldl stepEvent ⟨[], none, none⟩

/-- Grounding: on a non-blank line that parses, `processLine` is exactly
the guarded event step. -/
theorem processLine_parsed (parse : List Char → Except String ChatStreamEvent)
    (st : ChatLoopState) (line : List Char) (e : ChatStreamEvent)
    (hnb : trimL line ≠ []) (hp : parse line = .ok e) :
    processLine parse st line = stepEvent st e := by
  simp only [processLine, stepEvent]
  by_cases h : st.thrown.isSome <;> simp [h, hnb, hp]

theorem applyEvent_finalPayload (st : ChatLoopState) (e : ChatStreamEvent) :
    (applyEvent st e).finalPayload =
      match termPayload e with
      | some q => some (normalizeChatResponse q)
      | none => st.finalPayload := by
  cases e <;> rfl

theorem applyEvent_thrown (st : ChatLoopState) (e : ChatStreamEvent)
    (h : isErrEvent e = false) : (applyEvent st e).thrown = st.thrown := by
  cases e <;> first
    | rfl
    | exact absurd h (by simp [isErrEvent])

theorem termPayload_of_not_term (e : ChatStreamEvent)
    (h : isTermSuccess e = false) : termPayload e = none := by
  cases e <;> first
    | rfl
    | exact absurd h (by simp [isTermSuccess])

theorem stepEvent_thrown_none (st : ChatLoopState) (e : ChatStreamEvent)
    (hst : st.thrown = none) (h : isErrEvent e = false) :
    (stepEvent st e).thrown = none := by
  simp only [stepEvent, hst, Option.isSome_none, Bool.false_eq_true, if_false]
  rw [applyEvent_thrown st e h, hst]

theorem foldl_stepEvent_thrown_none (es : List ChatStreamEvent)
    (st : ChatLoopState) (hst : st.thrown = none)
    (hne : ∀ e ∈ es, isErrEvent e = false) :
    (es.foldl stepEvent st).thrown = none := by
  induction es generalizing st with
  | nil => exact hst
  | cons e rest ih =>
    rw [List.foldl_cons]
    exact ih _ (stepEvent_thrown_none st e hst (hne e (by simp)))
      (fun x hx => hne x (by simp [hx]))

/-- The payload carried by the last terminal success event of the
sequence, expressed through list primitives. -/
def lastTermPayload (es : List ChatStreamEvent) : Option RawChatResponse :=
  (es.filterMap termPayload).getLast?

theorem lastTermPayload_cons (e : ChatStreamEvent) (es : List ChatStreamEvent) :
    lastTermPayload (e :: es) =
      match lastTermPayload es with
      | some q => some q
      | none => termPayload e := by
  simp only [lastTermPayload, List.filterMap_cons]
  cases he : termPayload e with
  | none =>
    cases h2 : (es.filterMap termPayload).getLast? <;> simp [h2]
  | some q =>
    cases hl : es.filterMap termPayload with
    | nil => simp [hl]
    | cons x xs =>
      rw [List.getLast?_cons_cons]
      cases h2 : (x :: xs).getLast? with
      | none => simp at h2
      | some y => simp [h2]

theorem foldl_stepEvent_finalPayload (es : List ChatStreamEvent)
    (st : ChatLoopState) (hst : st.thrown = none)
    (hne : ∀ e ∈ es, isErrEvent e = false) :
    (es.foldl stepEvent st).finalPayload =
      match lastTermPayload es with
      | some q => some (normalizeChatResponse q)
      | none => st.finalPayload := by
  induction es generalizing st with
  | nil => simp [lastTermPayload]
  | cons e rest ih =>
    have he : isErrEvent e = false := hne e (by simp)
    have hrest : ∀ x ∈ rest, isErrEvent x = false := fun x hx => hne x (by simp [hx])
    rw [List.foldl_cons]
    have hstep : stepEvent st e = applyEvent st e := by
      simp [stepEvent, hst]
    have hthrown : (applyEvent st e).thrown = none := by
      rw [applyEvent_thrown st e he, hst]
    rw [hstep, ih (applyEvent st e) hthrown hrest, lastTermPayload_cons,
      applyEvent_finalPayload]
    cases hl : lastTermPayload rest <;> cases hp : termPayload e <;> simp

theorem stepEvent_finalPayload_of_nonterm (st : ChatLoopState)
    (e : ChatStreamEvent) (h : termPayload e = none) :
    (stepEvent st e).finalPayload = st.finalPayload := by
  simp only [stepEvent]
  by_cases hs : st.thrown.isSome
  · simp [hs]
  · simp only [hs, if_false, Bool.false_eq_true]
    rw [applyEvent_finalPayload, h]

theorem stepEvent_thrown_of_nonerr (st : ChatLoopState)
    (e : ChatStreamEvent) (h : isErrEvent e = false) :
    (stepEvent st e).thrown = st.thrown := by
  simp only [stepEvent]
  by_cases hs : st.thrown.isSome
  · simp [hs]
  · simp only [hs, if_false, Bool.false_eq_true]
    exact applyEvent_thrown st e h

theorem stepEvent_proj (st st2 : ChatLoopState) (e : ChatStreamEvent)
    (hf : st.finalPayload = st2.finalPayload) (ht : st.thrown = st2.thrown) :
    (stepEvent st e).finalPayload = (stepEvent st2 e).finalPayload ∧
      (stepEvent st e).thrown = (stepEvent st2 e).thrown := by
  simp only [stepEvent, ht]
  by_cases hs : st2.thrown.isSome
  · simp [hs, hf, ht]
  · simp only [hs, if_false, Bool.false_eq_true]
    cases e <;> simp [applyEvent, hf, ht]

theorem foldl_stepEvent_filter_tokens (es : List ChatStreamEvent) :
    ∀ st st2 : ChatLoopState, st.finalPayload = st2.finalPayload →
      st.thrown = st2.thrown →
      (es.foldl stepEvent st).finalPayload =
        ((es.filter (fun e => !isTokenEvent e)).foldl stepEvent st2).finalPayload ∧
      (es.foldl stepEvent st).thrown =
        ((es.filter (fun e => !isTokenEvent e)).foldl stepEvent st2).thrown := by
  induction es with
  | nil =>
    intro st st2 hf ht
    exact ⟨hf, ht⟩
  | cons e rest ih =>
    intro st st2 hf ht
    by_cases htok : isTokenEvent e = true
    · have hfe : (e :: rest).filter (fun e => !isTokenEvent e) =
          rest.filter (fun e => !isTokenEvent e) := by
        simp [List.filter_cons, htok]
      have hpay : termPayload e = none := by
        cases e <;> simp_all [isTokenEvent, termPayload]
      have herr : isErrEvent e = false := by
        cases e <;> simp_all [isTokenEvent, isErrEvent]
      rw [hfe, List.foldl_cons]
      exact ih (stepEvent st e) st2
        ((stepEvent_finalPayload_of_nonterm st e hpay).trans hf)
        ((stepEvent_thrown_of_nonerr st e herr).trans ht)
    · have hfe : (e :: rest).filter (fun e => !isTokenEvent e) =
          e :: rest.filter (fun e => !isTokenEvent e) := by
        simp [List.filter_cons, htok]
      rw [hfe, List.foldl_cons, List.foldl_cons]
      exact ih _ _ (stepEvent_proj st st2 e hf ht).1 (stepEvent_proj st st2 e hf ht).2

theorem chatOutcome_congr (st st2 : ChatLoopState)
    (hf : st.finalPayload = st2.finalPayload) (ht : st.thrown = st2.thrown) :
    chatOutcome st = chatOutcome st2 := by
  simp [chatOutcome, hf, ht]

/-- C2: when the event stream has no error events and its last terminal
success event carries payload `p`, the request resolves with exactly the
normalized `p`; dropping every token event changes nothing, so the
accumulated token text never becomes the returned answer. -/
theorem streamChat_final_from_last_terminal (es : List ChatStreamEvent)
    (p : RawChatResponse)
    (hne : ∀ e ∈ es, isErrEvent e = false)
    (hp : lastTermPayload es = some p) :
    chatOutcome (runEvents es) = .ok (normalizeChatResponse p) ∧
    chatOutcome (runEvents (es.filter (fun e => !isTokenEvent e))) =
      chatOutcome (runEvents es) := by
  constructor
  · have h1 := foldl_stepEvent_thrown_none es ⟨[], none, none⟩ rfl hne
    have h2 := foldl_stepEvent_finalPayload es ⟨[], none, none⟩ rfl hne
    rw [hp] at h2
    have h3 : (es.foldl stepEvent ⟨[], none, none⟩).finalPayload =
        some (normalizeChatResponse p) := h2
    unfold runEvents
    simp [chatOutcome, h1, h3]
  · have h3 := foldl_stepEvent_filter_tokens es ⟨[], none, none⟩ ⟨[], none, none⟩ rfl rfl
    unfold runEvents
    exact (chatOutcome_congr _ _ h3.1 h3.2).symm

/-- A first terminal payload used by the C2 witness. -/
def rawPayloadA : RawChatResponse := ⟨some true, some "draft", none, none, none⟩

/-- The last terminal payload used by the C2 witness. -/
def rawPayloadB : RawChatResponse :=
  ⟨none, some "final answer", some "sum", some ["s1"], none⟩

/-- Witness for C2 on a concrete stream with tokens, an `end` and a
later `cached` event. -/
theorem streamChat_final_from_last_terminal_witness :
    chatOutcome (runEvents
        [.token "Hi", .endEvent rawPayloadA, .token " there", .cached rawPayloadB]) =
      .ok (normalizeChatResponse rawPayloadB) ∧
    chatOutcome (runEvents
        (([.token "Hi", .endEvent rawPayloadA, .token " there", .cached rawPayloadB] :
            List ChatStreamEvent).filter (fun e => !isTokenEvent e))) =
      chatOutcome (runEvents
        [.token "Hi", .endEvent rawPayloadA, .token " there", .cached rawPayloadB]) :=
  streamChat_final_from_last_terminal _ rawPayloadB (by decide) (by decide)

theorem processLine_finalPayload_none
    (parse : List Char → Except String ChatStreamEvent)
    (hterm : ∀ l e, parse l = .ok e → isTermSuccess e = false)
    (st : ChatLoopState) (line : List Char) (h : st.finalPayload = none) :
    (processLine parse st line).finalPayload = none := by
  simp only [processLine]
  by_cases hs : st.thrown.isSome
  · simp [hs, h]
  · simp only [hs, if_false, Bool.false_eq_true]
    by_cases hb : trimL line = []
    · simp [hb, h]
    · simp only [hb, if_neg hb, if_false]
      cases hp : parse line with
      | error m => exact h
      | ok e =>
        rw [applyEvent_finalPayload,
          termPayload_of_not_term e (hterm line e hp), h]

theorem foldl_processLine_finalPayload_none
    (parse : List Char → Except String ChatStreamEvent)
    (hterm : ∀ l e, parse l = .ok e → isTermSuccess e = false)
    (lines : List (List Char)) (st : ChatLoopState)
    (h : st.finalPayload = none) :
    (lines.foldl (processLine parse) st).finalPayload = none := by
  induction lines generalizing st with
  | nil => exact h
  | cons l rest ih =>
    rw [List.foldl_cons]
    exact ih _ (processLine_finalPayload_none parse hterm st l h)

theorem runChunks_finalPayload_none
    (parse : List Char → Except String ChatStreamEvent)
    (hterm : ∀ l e, parse l = .ok e → isTermSuccess e = false)
    (chunks : List (List Char)) (st : ChatLoopState) (buffer : List Char)
    (h : st.finalPayload = none) :
    (runChunks parse st buffer chunks).1.finalPayload = none := by
  induction chunks generalizing st buffer with
  | nil => exact h
  | cons c rest ih =>
    simp only [runChunks]
    exact ih _ _ (foldl_processLine_finalPayload_none parse hterm _ st h)

theorem processLine_thrown_none
    (parse : List Char → Except String ChatStreamEvent)
    (hok : ∀ l, ∃ e, parse l = .ok e ∧ isErrEvent e = false)
    (st : ChatLoopState) (line : List Char) (h : st.thrown = none) :
    (processLine parse st line).thrown = none := by
  simp only [processLine]
  by_cases hs : st.thrown.isSome
  · rw [h] at hs
    simp at hs
  · simp only [hs, if_false, Bool.false_eq_true]
    by_cases hb : trimL line = []
    · simp [hb, h]
    · simp only [hb, if_neg hb, if_false]
      obtain ⟨e, hpe, hee⟩ := hok line
      rw [hpe, applyEvent_thrown st e hee, h]

theorem foldl_processLine_thrown_none
    (parse : List Char → Except String ChatStreamEvent)
    (hok : ∀ l, ∃ e, parse l = .ok e ∧ isErrEvent e = false)
    (lines : List (List Char)) (st : ChatLoopState) (h : st.thrown = none) :
    (lines.foldl (processLine parse) st).thrown = none := by
  induction lines generalizing st with
  | nil => exact h
  | cons l rest ih =>
    rw [List.foldl_cons]
    exact ih _ (processLine_thrown_none parse hok st l h)

theorem runChunks_thrown_none
    (parse : List Char → Except String ChatStreamEvent)
    (hok : ∀ l, ∃ e, parse l = .ok e ∧ isErrEvent e = false)
    (chunks : List (List Char)) (st : ChatLoopState) (buffer : List Char)
    (h : st.thrown = none) :
    (runChunks parse st buffer chunks).1.thrown = none := by
  induction chunks generalizing st buffer with
  | nil => exact h
  | cons c rest ih =>
    simp only [runChunks]
    exact ih _ _ (foldl_processLine_thrown_none parse hok _ st h)

/-- C3: if no line of the stream ever parses to an `end` or `cached`
event, `streamChatRequest` never resolves; and when additionally every
line parses cleanly to a non-error event (for example a stream of only
token/sources/summary events, or the empty stream), it rejects with
exactly "Chat stream completed without a final payload.". -/
theorem streamChat_no_terminal_rejects
    (parse : List Char → Except String ChatStreamEvent)
    (chunks : List (List Char))
    (hterm : ∀ l e, parse l = .ok e → isTermSuccess e = false) :
    (streamChatModel parse chunks).result.isOk = false ∧
    ((∀ l, ∃ e, parse l = .ok e ∧ isErrEvent e = false) →
      (streamChatModel parse chunks).result =
        .error "Chat stream completed without a final payload.") := by
  have hfp : (runChunks parse ⟨[], none, none⟩ [] chunks).1.finalPayload = none :=
    runChunks_finalPayload_none parse hterm chunks _ [] rfl
  have hfp2 : (processLine parse (runChunks parse ⟨[], none, none⟩ [] chunks).1
      (runChunks parse ⟨[], none, none⟩ [] chunks).2).finalPayload = none :=
    processLine_finalPayload_none parse hterm _ _ hfp
  constructor
  · unfold streamChatModel chatFinish
    cases hthr : (processLine parse (runChunks parse ⟨[], none, none⟩ [] chunks).1
        (runChunks parse ⟨[], none, none⟩ [] chunks).2).thrown with
    | some m => simp [chatOutcome, hthr, Except.isOk, Except.toBool]
    | none => simp [chatOutcome, hthr, hfp2, Except.isOk, Except.toBool]
  · intro hok
    have hth : (runChunks parse ⟨[], none, none⟩ [] chunks).1.thrown = none :=
      runChunks_thrown_none parse hok chunks _ [] rfl
    have hth2 : (processLine parse (runChunks parse ⟨[], none, none⟩ [] chunks).1
        (runChunks parse ⟨[], none, none⟩ [] chunks).2).thrown = none :=
      processLine_thrown_none parse hok _ _ hth
    unfold streamChatModel chatFinish
    simp [chatOutcome, hth2, hfp2]

/-- A concrete stand-in for `JSON.parse` used by the C3 witness: every
line parses to a token event. -/
def tokenParseB : List Char → Except String ChatStreamEvent :=
  fun l => .ok (.token (String.mk l))

/-- Witness for C3: a two-line stream of only token events rejects with
the fixed message. -/
theorem streamChat_no_terminal_rejects_witness :
    (streamChatModel tokenParseB [['a', '\n', 'b']]).result =
      .error "Chat stream completed without a final payload." :=
  (streamChat_no_terminal_rejects tokenParseB [['a', '\n', 'b']]
      (by
        intro l e h
        simp only [tokenParseB, Except.ok.injEq] at h
        subst h
        rfl)).2
    (fun l => ⟨.token (String.mk l), rfl, rfl⟩)

/-!
## Scrape orchestrator (`scrapeProblemFromTab` in the background script)

The polling loop is modelled in idealized discrete time: each
`executeScrape` attempt is instantaneous and each wait advances the clock
by the poll interval of 300 ms, so attempt `i` runs at elapsed time
`i * 300` and the `Date.now() - start < timeoutMs` guard is checked right
before it.  The per-attempt outcome of the injected scrape is the
environment function `extract`.  Results are instrumented with the
elapsed time at which the promise settles.
-/

/-- The canonical Problem record of the extension (`types.ts`). -/
structure Problem where
  title : String
  difficulty : String
  description : String
  examples : List String
  constraints : String
  url : String
  slug : String
  problemNumber : String
  timestamp : Nat
deriving DecidableEq

/-- The `while (Date.now() - start < timeoutMs)` loop of
`scrapeProblemFromTab` with the default 12 000 ms timeout and 300 ms
delay, entered at attempt index `i`. -/
def scrapeLoop (extract : Nat → Option Problem) (i : Nat) :
    Except (String × Nat) (Problem × Nat) :=
  if h : i * 300 < 12000 then
    match extract i with
    | some p => .ok (p, i * 300)
    | none => scrapeLoop extract (i + 1)
  else .error ("Could not detect a LeetCode problem on this page.", i * 300)
termination_by 12000 - i * 300
decreasing_by omega

/-- `scrapeProblemFromTab tabId` with default arguments: start polling at
attempt 0. -/
def scrapeProblemFromTab (extract : Nat → Option Problem) :
    Except (String × Nat) (Problem × Nat) :=
  scrapeLoop extract 0

theorem scrapeLoop_unfold (extract : Nat → Option Problem) (i : Nat) :
    scrapeLoop extract i =
      if _ : i * 300 < 12000 then
        match extract i with
        | some p => .ok (p, i * 300)
        | none => scrapeLoop extract (i + 1)
      else .error ("Could not detect a LeetCode problem on this page.", i * 300) := by
  rw [scrapeLoop]

/-- C4: with poll interval 300 ms and timeout 12 000 ms, an extractor that
first succeeds at attempt `N` (elapsed `N·300 < 12000`) makes the call
resolve with that Problem at elapsed time `N·300`, inside the timeout;
an extractor that never succeeds makes the call reject with "Could not
detect a LeetCode problem on this page." exactly when the elapsed time
reaches 12 000 ms — neither earlier nor later. -/
theorem scrapeFromTab_poll_timeout (extract : Nat → Option Problem) :
    (∀ N p, (∀ j, j < N → extract j = none) → extract N = some p →
      N * 300 < 12000 →
      scrapeProblemFromTab extract = .ok (p, N * 300)) ∧
    ((∀ j, extract j = none) →
      scrapeProblemFromTab extract =
        .error ("Could not detect a LeetCode problem on this page.", 12000)) := by
  constructor
  · intro N p hnone hN htime
    have main : ∀ k i, i + k = N → scrapeLoop extract i = .ok (p, N * 300) := by
      intro k
      induction k with
      | zero =>
        intro i hi
        have : i = N := by omega
        subst this
        rw [scrapeLoop_unfold, dif_pos htime, hN]
      | succ k ih =>
        intro i hi
        have hlt : i < N := by omega
        have hit : i * 300 < 12000 := by omega
        rw [scrapeLoop_unfold, dif_pos hit, hnone i hlt]
        exact ih (i + 1) (by omega)
    exact main N 0 (by omega)
  · intro hall
    have main : ∀ k i, i + k = 40 → scrapeLoop extract i =
        .error ("Could not detect a LeetCode problem on this page.", 12000) := by
      intro k
      induction k with
      | zero =>
        intro i hi
        have : i = 40 := by omega
        subst this
        rw [scrapeLoop_unfold, dif_neg (by omega)]
      | succ k ih =>
        intro i hi
        have hit : i * 300 < 12000 := by omega
        rw [scrapeLoop_unfold, dif_pos hit, hall i]
        exact ih (i + 1) (by omega)
    exact main 40 0 (by omega)

/-- A concrete Problem record used by witnesses. -/
def sampleProblem : Problem :=
  ⟨"Two Sum", "Easy", "desc", [], "1 <= n <= 10", 
    "https://leetcode.com/problems/two-sum/", "two-sum", "1", 0⟩

/-- Witness for C4: an extractor succeeding on attempt 2 resolves at
600 ms; an extractor that never succeeds rejects at 12 000 ms. -/
theorem scrapeFromTab_poll_timeout_witness :
    scrapeProblemFromTab (fun i => if i = 2 then some sampleProblem else none) =
      .ok (sampleProblem, 2 * 300) ∧
    scrapeProblemFromTab (fun _ => none) =
      .error ("Could not detect a LeetCode problem on this page.", 12000) := by
  constructor
  · exact (scrapeFromTab_poll_timeout _).1 2 sampleProblem
      (by
        intro j hj
        interval_cases j <;> rfl)
      rfl (by omega)
  · exact (scrapeFromTab_poll_timeout _).2 (fun j => rfl)

/-!
## Extension messaging bus (background `chrome.runtime.onMessage` listener)

The chrome APIs are modelled by an environment record holding the
outcome of each platform call; `sendResponse` invocations are logged in
order.  The listener's synchronous return value is `some true` when it
signals a pending asynchronous response, `none` when it returns
`undefined`.
-/

/-- A tab as seen by `chrome.tabs.query`; the id may be `undefined`. -/
structure BgTab where
  id : Option Nat

/-- The response value passed to `sendResponse`. -/
structure BgResponse where
  success : Bool
  error : Option String
  problem : Option Problem
deriving DecidableEq

/-- Environment of the background message handler: outcomes of the
platform calls it performs. -/
structure BgEnv where
  hasSidePanel : Bool
  tabsQueryP : Except String (List BgTab)
  sidePanelOps : Except String Unit
  tabsQueryErr : Option String
  tabsQueryCb : List BgTab
  extract : Nat → Option Problem

/-- `!activeTab?.id` — falsy for a missing tab, a missing id, and an id
of 0. -/
def falsyTabId : Option BgTab → Bool
  | none => true
  | some t =>
    match t.id with
    | none => true
    | some n => n = 0

/-- `openSidePanelForCurrentTab` from the background script; an
`Except.error` is a promise rejection escaping the async function. -/
def openSidePanelForCurrentTab (env : BgEnv) : Except String BgResponse :=
  if !env.hasSidePanel then
    .ok ⟨false, some "Side panel API is not available in this Chrome version.", none⟩
  else
    match env.tabsQueryP with
    | .error m => .error m
    | .ok tabs =>
      if falsyTabId tabs.head? then
        .ok ⟨false, some "No active tab to attach the side panel to.", none⟩
      else
        match env.sidePanelOps with
        | .ok _ => .ok ⟨true, none, none⟩
        | .error m => .ok ⟨false, some m, none⟩

/-- The background `chrome.runtime.onMessage` listener: returns the
listener's synchronous return value and the ordered list of
`sendResponse` invocations. -/
def handleBgMessage (env : BgEnv) (msgType : String) :
    Option Bool × List BgResponse :=
  if msgType = "OPEN_SIDE_PANEL" then
    (some true,
      match openSidePanelForCurrentTab env with
      | .ok r => [r]
      | .error m => [⟨false, some m, none⟩])
  else if msgType = "GET_ACTIVE_PROBLEM" then
    (some true,
      match env.tabsQueryErr with
      | some m => [⟨false, some m, none⟩]
      | none =>
        if falsyTabId env.tabsQueryCb.head? then
          [⟨false, some "No active tab detected.", none⟩]
        else
          match scrapeProblemFromTab env.extract with
          | .ok pr => [⟨true, none, some pr.1⟩]
          | .error er => [⟨false, some er.1, none⟩])
  else (none, [])

/-- C9: for `OPEN_SIDE_PANEL` and `GET_ACTIVE_PROBLEM` messages the
background listener returns `true` synchronously, and on every
environment path — success, scrape failure, query error, missing active
tab — `sendResponse` is invoked exactly once. -/
theorem bg_handler_responds_once (env : BgEnv) (t : String)
    (h : t = "OPEN_SIDE_PANEL" ∨ t = "GET_ACTIVE_PROBLEM") :
    (handleBgMessage env t).1 = some true ∧
      (handleBgMessage env t).2.length = 1 := by
  rcases h with h | h
  · subst h
    refine ⟨by simp [handleBgMessage], ?_⟩
    simp only [handleBgMessage, if_pos rfl]
    cases hx : openSidePanelForCurrentTab env <;> simp
  · subst h
    have hne : ("GET_ACTIVE_PROBLEM" : String) ≠ "OPEN_SIDE_PANEL" := by decide
    refine ⟨by simp [handleBgMessage, hne], ?_⟩
    simp only [handleBgMessage, if_neg hne, if_pos rfl]
    cases henv : env.tabsQueryErr with
    | some m => simp
    | none =>
      by_cases hf : falsyTabId env.tabsQueryCb.head? = true
      · simp [hf]
      · simp only [Bool.not_eq_true] at hf
        simp only [hf, Bool.false_eq_true, if_false]
        cases hs : scrapeProblemFromTab env.extract <;> simp

/-- A concrete environment for the C9 witness. -/
def sampleBgEnv : BgEnv :=
  ⟨true, .ok [⟨some 1⟩], .ok (), none, [⟨some 1⟩], fun _ => none⟩

/-- Witness for C9 at a concrete environment and message. -/
theorem bg_handler_responds_once_witness :
    (handleBgMessage sampleBgEnv "OPEN_SIDE_PANEL").1 = some true ∧
      (handleBgMessage sampleBgEnv "OPEN_SIDE_PANEL").2.length = 1 :=
  bg_handler_responds_once sampleBgEnv "OPEN_SIDE_PANEL" (Or.inl rfl)

/-!
## DOM model and the HTML content parser (`parseHtmlContent`)

An HTML fragment is a tree of element and text nodes.  Element tags are
stored lowercase, as written in source markup; the DOM's uppercase
`tagName` is modelled by `jsToUpper`.  `DOMParser.parseFromString` is the
platform boundary: the parser model receives the already-parsed `body`
element.
-/

mutual
inductive Dom where
  | text (s : String)
  | elem (tag : String) (attrs : List (String × String)) (children : DomList)
deriving DecidableEq
inductive DomList where
  | nil
  | cons (d : Dom) (ds : DomList)
deriving DecidableEq
end

/-- Build a `DomList` from a Lean list (construction helper). -/
def domListOf : List Dom → DomList
  | [] => .nil
  | d :: ds => .cons d (domListOf ds)

/-- Is the node an element node? -/
def isElem : Dom → Bool
  | .elem _ _ _ => true
  | .text _ => false

/-- The element's tag as stored (lowercase); empty for text nodes. -/
def tagOf : Dom → String
  | .elem t _ _ => t
  | .text _ => ""

/-- The node's child list. -/
def childrenOf : Dom → DomList
  | .elem _ _ cs => cs
  | .text _ => .nil

/-- `getAttribute`: first attribute with the given name. -/
def getAttr : Dom → String → Option String
  | .elem _ attrs _, name => attrs.lookup name
  | .text _, _ => none

mutual
def textContentD : Dom → String
  | .text s => s
  | .elem _ _ cs => textContentL cs
def textContentL : DomList → String
  | .nil => ""
  | .cons d ds => textContentD d ++ textContentL ds
end

mutual
def descElemsD : Dom → List Dom
  | .text _ => []
  | .elem _ _ cs => descElemsL cs
def descElemsL : DomList → List Dom
  | .nil => []
  | .cons d ds =>
    (match d with
     | .elem _ _ _ => d :: descElemsD d
     | .text _ => []) ++ descElemsL ds
end

/-- The element children of a child list (the DOM `children` collection,
in document order). -/
def elemChildren : DomList → List Dom
  | .nil => []
  | .cons d ds =>
    (match d with
     | .elem _ _ _ => [d]
     | .text _ => []) ++ elemChildren ds

/-- The first element node of a child list (`nextElementSibling`
computation helper). -/
def firstElemL : DomList → Option Dom
  | .nil => none
  | .cons d ds =>
    match d with
    | .elem _ _ _ => some d
    | .text _ => firstElemL ds

/-- `querySelectorAll(tag)` below a root: descendant elements with the
given tag, in document order. -/
def queryTag (root : Dom) (tag : String) : List Dom :=
  (descElemsD root).filter (fun d => tagOf d = tag)

/-- The preformatted blocks of a fragment (`querySelectorAll('pre')`). -/
def queryPres (root : Dom) : List Dom := queryTag root "pre"

/-- A located `strong` element: the node itself, its parent element, the
parent's next element sibling, and its own next element sibling. -/
structure StrongLoc where
  node : Dom
  parent : Dom
  parentNext : Option Dom
  selfNext : Option Dom
deriving DecidableEq

mutual
def strongsIn : Dom → Option Dom → List StrongLoc
  | .text _, _ => []
  | .elem t a cs, eNext => strongsInL (.elem t a cs) eNext cs
def strongsInL : Dom → Option Dom → DomList → List StrongLoc
  | _, _, .nil => []
  | e, eNext, .cons c rest =>
    (match c with
     | .elem ct _ _ =>
       (if ct = "strong" then
          [⟨c, e, eNext, firstElemL rest⟩]
        else []) ++ strongsIn c (firstElemL rest)
     | .text _ => []) ++ strongsInL e eNext rest
end

/-- `querySelector('strong')` below a node: the first located strong. -/
def firstStrong (root : Dom) : Option Dom :=
  ((descElemsD root).filter (fun d => tagOf d = "strong")).head?

/-- The description accumulation loop of `parseHtmlContent`: walk the
top-level element children, stopping at the first child that carries a
bold label starting with "example"/"constraints" or that is itself a
`pre` block; push each earlier child's non-empty trimmed text. -/
def descLoop : List Dom → List String
  | [] => []
  | child :: rest =>
    let strongText :=
      match firstStrong child with
      | some sn => jsToLower (jsTrim (textContentD sn))
      | none => ""
    if jsStartsWith strongText "example" || jsStartsWith strongText "constraints" then []
    else if jsToLower (tagOf child) = "pre" then []
    else
      (let t := jsTrim (textContentD child); if t = "" then [] else [t]) ++ descLoop rest

/-- The first strong label whose text contains "constraint"
(case-insensitive), with its location. -/
def findConstraintLoc (body : Dom) : Option StrongLoc :=
  (strongsIn body none).find?
    (fun L => containsStr (jsToLower (textContentD L.node)).data "constraint".data)

/-- `UL`/`OL` check on the DOM `tagName`. -/
def isListTag (d : Dom) : Bool :=
  jsToUpper (tagOf d) = "UL" || jsToUpper (tagOf d) = "OL"

/-- The joined, trimmed, non-empty texts of a list's element children. -/
def listItemsText (sib : Dom) : String :=
  joinSep "\n"
    (((elemChildren (childrenOf sib)).map (fun item => jsTrim (textContentD item))).filter
      (fun t => t ≠ ""))

/-- The constraints extraction of `parseHtmlContent`: locate the first
constraint label; use the parent's following element sibling when it is
a list, otherwise the parent's full trimmed text; fall back to the
sentinel. -/
def constraintsOf (body : Dom) : String :=
  match findConstraintLoc body with
  | none => "Constraints not detected."
  | some L =>
    match L.parentNext with
    | some sib => if isListTag sib then listItemsText sib else jsTrim (textContentD L.parent)
    | none => jsTrim (textContentD L.parent)

/-- The output record of `parseHtmlContent`. -/
structure ParsedHtml where
  description : String
  examples : List String
  constraints : String
deriving DecidableEq

/-- `parseHtmlContent` from the content scripts, over the parsed `body`
element of the fragment. -/
def parseHtmlContent (body : Dom) : ParsedHtml :=
  let parts := descLoop (elemChildren (childrenOf body))
  let joined := joinSep "\n\n" parts
  let description :=
    if joined = "" then
      (let t := jsTrim (textContentD body);
       if t = "" then "Unable to extract the problem description." else t)
    else joined
  ⟨description,
    ((queryPres body).map (fun n => jsTrim (textContentD n))).filter (fun t => t ≠ ""),
    constraintsOf body⟩

/-- Modelled from the spec: "Examples = text content of every
preformatted block in the fragment, in document order, empty ones
dropped", written with a single filterMap pass. -/
def specExamples (body : Dom) : List String :=
  (queryPres body).filterMap
    (fun p => if jsTrim (textContentD p) = "" then none else some (jsTrim (textContentD p)))

theorem filter_map_eq_filterMap (f : Dom → String) (l : List Dom) :
    ((l.map f).filter (fun t => t ≠ "")) =
      l.filterMap (fun p => if f p = "" then none else some (f p)) := by
  induction l with
  | nil => rfl
  | cons x xs ih =>
    simp only [List.map_cons, List.filter_cons, List.filterMap_cons, ne_eq,
      decide_not] at ih ⊢
    by_cases hx : f x = ""
    · simp [hx, ih]
    · simp [hx, ih]

/-- C6 (amended): `examples` equals the trimmed text content of the
fragment's preformatted blocks in document order with empty ones
dropped; consequently every fragment containing at least one
preformatted block with non-empty trimmed text yields at least one
example.  (As stated, the claim's consequence fails when the only
preformatted block trims to the empty string, see the
counterexample.) -/
theorem examples_from_pre_blocks (body : Dom)
    (h : (queryPres body).any (fun p => !(jsTrim (textContentD p) = "")) = true) :
    (parseHtmlContent body).examples = specExamples body ∧
    1 ≤ (parseHtmlContent body).examples.length := by
  have heq : (parseHtmlContent body).examples = specExamples body :=
    filter_map_eq_filterMap (fun n => jsTrim (textContentD n)) (queryPres body)
  refine ⟨heq, ?_⟩
  rw [heq]
  obtain ⟨p, hp, hne⟩ := List.any_eq_true.mp h
  have hne2 : ¬(jsTrim (textContentD p) = "") := by
    simpa using hne
  have hmem : jsTrim (textContentD p) ∈ specExamples body :=
    List.mem_filterMap.mpr ⟨p, hp, by simp [hne2]⟩
  exact List.length_pos.mpr (List.ne_nil_of_mem hmem)

/-- A fragment whose only preformatted block has whitespace-only text. -/
def exC6a : Dom :=
  .elem "body" [] (domListOf [.elem "pre" [] (domListOf [.text "   "])])

/-- Counterexample for C6 as stated: a fragment containing a preformatted
block whose `examples` output is empty. -/
theorem examples_empty_pre_counterexample :
    queryPres exC6a ≠ [] ∧ (parseHtmlContent exC6a).examples = [] := by
  decide

/-- A fragment with one non-empty preformatted block (C6 witness). -/
def exC6b : Dom :=
  .elem "body" [] (domListOf [.elem "pre" [] (domListOf [.text "In: 1"])])

/-- Witness for the amended C6 at a concrete fragment. -/
theorem examples_from_pre_blocks_witness :
    (parseHtmlContent exC6b).examples = specExamples exC6b ∧
    1 ≤ (parseHtmlContent exC6b).examples.length :=
  examples_from_pre_blocks exC6b (by decide)

/-- Modelled from the claim's words for C7: constraints from the list
that is the first constraint label's OWN following element sibling
(`selfNext`), rather than the parent's. -/
def claimConstraints (body : Dom) : String :=
  match findConstraintLoc body with
  | none => "Constraints not detected."
  | some L =>
    match L.selfNext with
    | some sib => if isListTag sib then listItemsText sib else jsTrim (textContentD L.parent)
    | none => jsTrim (textContentD L.parent)

/-- A fragment in which the constraint label's own next sibling is a
list, but the label's parent's next sibling is not. -/
def exC7a : Dom :=
  .elem "body" []
    (domListOf
      [.elem "div" []
        (domListOf
          [.elem "strong" [] (domListOf [.text "Constraints"]),
            .elem "ul" []
              (domListOf [.elem "li" [] (domListOf [.text "1 <= n <= 10"])])]),
        .elem "p" [] (domListOf [.text "after"])])

/-- Counterexample for C7 as stated: the parser uses the label's PARENT's
following sibling, so on `exC7a` it returns the parent's concatenated
text instead of the list items the claim predicts. -/
theorem constraints_sibling_counterexample :
    (parseHtmlContent exC7a).constraints = "Constraints1 <= n <= 10" ∧
    claimConstraints exC7a = "1 <= n <= 10" ∧
    (parseHtmlContent exC7a).constraints ≠ claimConstraints exC7a := by
  decide

/-- C7 (amended): when a strong label containing "constraint" exists, the
constraints output is the newline-joined trimmed item texts of the
label's PARENT's following element sibling when that sibling is a
UL/OL list, and the parent's trimmed full text otherwise; with no such
label it is the fixed sentinel. -/
theorem constraints_from_parent_sibling (body : Dom) :
    (findConstraintLoc body = none →
      (parseHtmlContent body).constraints = "Constraints not detected.") ∧
    (∀ L sib, findConstraintLoc body = some L → L.parentNext = some sib →
      isListTag sib = true →
      (parseHtmlContent body).constraints = listItemsText sib) ∧
    (∀ L, findConstraintLoc body = some L →
      (match L.parentNext with
        | some sib => isListTag sib = false
        | none => True) →
      (parseHtmlContent body).constraints = jsTrim (textContentD L.parent)) := by
  have hc : (parseHtmlContent body).constraints = constraintsOf body := rfl
  refine ⟨?_, ?_, ?_⟩
  · intro h
    rw [hc]
    simp [constraintsOf, h]
  · intro L sib hL hsib hlist
    rw [hc]
    simp [constraintsOf, hL, hsib, hlist]
  · intro L hL hnl
    rw [hc]
    simp only [constraintsOf, hL]
    cases hp : L.parentNext with
    | none => simp
    | some sib =>
      rw [hp] at hnl
      simp [hnl]

/-- The list element used by the C7 witness. -/
def exC7bUl : Dom :=
  .elem "ul" [] (domListOf [.elem "li" [] (domListOf [.text "1 <= n <= 10"])])

/-- The paragraph holding the constraint label in the C7 witness. -/
def exC7bP : Dom :=
  .elem "p" [] (domListOf [.elem "strong" [] (domListOf [.text "Constraints:"])])

/-- The C7 witness fragment: label paragraph followed by a list. -/
def exC7b : Dom := .elem "body" [] (domListOf [exC7bP, exC7bUl])

/-- The located constraint label of `exC7b`. -/
def exC7bLoc : StrongLoc :=
  ⟨.elem "strong" [] (domListOf [.text "Constraints:"]), exC7bP, some exC7bUl, none⟩

/-- Witness for the amended C7: on `exC7b`, constraints equals the list's
joined item text. -/
theorem constraints_from_parent_sibling_witness :
    (parseHtmlContent exC7b).constraints = listItemsText exC7bUl :=
  (constraints_from_parent_sibling exC7b).2.1 exC7bLoc exC7bUl (by decide)
    (by decide) (by decide)

/-!
## Structured-data extractor (`extractFromNextData` / `extractFromCandidate`)

The embedded page-data blob is a JSON-like value.  Mirroring the source's
loose typing, a field access `(candidate.f as string | undefined)` is
modelled as "present and a string"; the traversal only reaches candidate
records through `isCandidate`, which guarantees exactly that shape.
`DOMParser` appears as the parameter `parseDom`, and
`window.location.pathname.split('/').filter(Boolean)[1]` as the
parameter `pagePathSeg`.
-/

mutual
inductive JsonVal where
  | str (s : String)
  | num (n : Int)
  | boolean (b : Bool)
  | null
  | arr (items : JsonList)
  | obj (fields : JsonFields)
deriving DecidableEq
inductive JsonList where
  | nil
  | cons (v : JsonVal) (vs : JsonList)
deriving DecidableEq
inductive JsonFields where
  | nil
  | cons (k : String) (v : JsonVal) (fs : JsonFields)
deriving DecidableEq
end

/-- Build a `JsonList` from a Lean list (construction helper). -/
def jsonListOf : List JsonVal → JsonList
  | [] => .nil
  | v :: vs => .cons v (jsonListOf vs)

/-- The elements of a `JsonList` as a Lean list. -/
def jlToList : JsonList → List JsonVal
  | .nil => []
  | .cons v vs => v :: jlToList vs

/-- The key/value pairs of a `JsonFields` as a Lean list
(`Object.entries` order). -/
def jfToList : JsonFields → List (String × JsonVal)
  | .nil => []
  | .cons k v fs => (k, v) :: jfToList fs

mutual
def jweight : JsonVal → Nat
  | .arr items => 1 + jweightL items
  | .obj fields => 1 + jweightF fields
  | _ => 1
def jweightL : JsonList → Nat
  | .nil => 0
  | .cons v vs => jweight v + jweightL vs
def jweightF : JsonFields → Nat
  | .nil => 0
  | .cons _ v fs => jweight v + jweightF fs
end

/-- Total weight of a traversal stack. -/
def stackW (s : List JsonVal) : Nat := (s.map jweight).sum

theorem jweight_pos (v : JsonVal) : 1 ≤ jweight v := by
  cases v <;> simp [jweight]

theorem stackW_nil : stackW [] = 0 := rfl

theorem stackW_cons (v : JsonVal) (s : List JsonVal) :
    stackW (v :: s) = jweight v + stackW s := by
  simp [stackW]

theorem stackW_append (a b : List JsonVal) :
    stackW (a ++ b) = stackW a + stackW b := by
  simp [stackW]

theorem stackW_reverse (l : List JsonVal) : stackW l.reverse = stackW l := by
  simp [stackW, List.sum_reverse]

theorem stackW_jlToList : ∀ items : JsonList,
    stackW (jlToList items) = jweightL items
  | .nil => rfl
  | .cons v vs => by
    simp [jlToList, stackW_cons, stackW_jlToList vs, jweightL]

theorem jfToList_weight : ∀ fs : JsonFields,
    ((jfToList fs).map (fun kv => jweight kv.2)).sum = jweightF fs
  | .nil => rfl
  | .cons k v fs => by
    simp [jfToList, jweightF, jfToList_weight fs]

/-- `Object.entries(x).find` on the model: first field with the key
(attribute lookup). -/
def jfGet : JsonFields → String → Option JsonVal
  | .nil, _ => none
  | .cons k v fs, name => if k = name then some v else jfGet fs name

/-- `(candidate.f as string | undefined)`: the field when present and a
string. -/
def getStrF (fs : JsonFields) (k : String) : Option String :=
  match jfGet fs k with
  | some (.str s) => some s
  | _ => none

/-- `candidate.question` when it is an object. -/
def getQObj (fs : JsonFields) : Option JsonFields :=
  match jfGet fs "question" with
  | some (.obj q) => some q
  | _ => none

/-- `candidate.question?.f` as a string. -/
def getQStr (fs : JsonFields) (k : String) : Option String :=
  match getQObj fs with
  | some q => getStrF q k
  | none => none

/-- `isCandidate`: a title that is a string, and a content or body that
is a string. -/
def isCandidateF (fs : JsonFields) : Bool :=
  (getStrF fs "title").isSome &&
    ((getStrF fs "content").isSome || (getStrF fs "body").isSome)

/-- The Problem record minus the timestamp (`ParsedProblem` in the
source). -/
structure ParsedProblem where
  title : String
  difficulty : String
  description : String
  examples : List String
  constraints : String
  url : String
  slug : String
  problemNumber : String
deriving DecidableEq

/-- `currentSlug`: slug of the second path segment of the page URL. -/
def currentSlug (pagePathSeg : Option String) : String :=
  toSlug (pagePathSeg.getD "")

/-- `extractFromCandidate` from the in-page scraper. -/
def extractFromCandidate (parseDom : String → Dom) (pagePathSeg : Option String)
    (href : String) (cand : JsonFields) (slug : String) : Option ParsedProblem :=
  match getStrF cand "title" <|> getStrF cand "questionTitle" <|> getQStr cand "title" with
  | none => none
  | some title =>
    if title = "" then none
    else
      match getStrF cand "content" <|> getQStr cand "content" <|> getStrF cand "body" with
      | none => none
      | some content =>
        if content = "" then none
        else
          if slug ≠ "" ∧ toSlug ((getStrF cand "titleSlug" <|> getStrF cand "slug").getD title) ≠ "" ∧
              toSlug ((getStrF cand "titleSlug" <|> getStrF cand "slug").getD title) ≠ slug then none
          else
            some ⟨title,
              normalizeDifficulty (getStrF cand "difficulty" <|> getQStr cand "difficulty"),
              (parseHtmlContent (parseDom content)).description,
              (parseHtmlContent (parseDom content)).examples,
              (parseHtmlContent (parseDom content)).constraints, href,
              (if toSlug ((getStrF cand "titleSlug" <|> getStrF cand "slug").getD title) = ""
                then slug
                else toSlug ((getStrF cand "titleSlug" <|> getStrF cand "slug").getD title)),
              (getStrF cand "questionFrontendId" <|> getStrF cand "frontendQuestionId" <|>
                getStrF cand "questionId" <|> getQStr cand "questionFrontendId" <|>
                getQStr cand "frontendQuestionId" <|> getQStr cand "questionId").getD
                (pagePathSeg.getD title)⟩

/-- The slug a candidate record derives for itself:
`toSlug(titleSlug ?? slug ?? title)`. -/
def candDerivedSlug (cand : JsonFields) : String :=
  toSlug ((getStrF cand "titleSlug" <|> getStrF cand "slug").getD
    ((getStrF cand "title" <|> getStrF cand "questionTitle" <|> getQStr cand "title").getD ""))

/-- `enqueue` of the traversal: skip primitives, flatten arrays one
level, push objects. -/
def enqueueJ (s : List JsonVal) (v : JsonVal) : List JsonVal :=
  match v with
  | .arr items => (jlToList items).reverse ++ s
  | .obj fs => .obj fs :: s
  | _ => s

/-- Push every field value of a popped object (`for value of
Object.values(node) enqueue(value)`). -/
def pushFieldsJ (fields : JsonFields) (rest : List JsonVal) : List JsonVal :=
  (jfToList fields).foldl (fun a kv => enqueueJ a kv.2) rest

theorem enqueueJ_weight (s : List JsonVal) (v : JsonVal) :
    stackW (enqueueJ s v) ≤ stackW s + jweight v := by
  cases v with
  | arr items =>
    simp only [enqueueJ, stackW_append, stackW_reverse, stackW_jlToList, jweight]
    omega
  | obj fs => simp [enqueueJ, stackW_cons, jweight]; omega
  | str s2 => simp [enqueueJ]
  | num n => simp [enqueueJ]
  | boolean b => simp [enqueueJ]
  | null => simp [enqueueJ]

theorem foldl_enqueueJ_weight (kvs : List (String × JsonVal)) :
    ∀ s : List JsonVal,
      stackW (kvs.foldl (fun a kv => enqueueJ a kv.2) s) ≤
        stackW s + (kvs.map (fun kv => jweight kv.2)).sum := by
  induction kvs with
  | nil => intro s; simp
  | cons kv rest ih =>
    intro s
    simp only [List.foldl_cons, List.map_cons, List.sum_cons]
    calc stackW (rest.foldl (fun a kv => enqueueJ a kv.2) (enqueueJ s kv.2)) ≤
        stackW (enqueueJ s kv.2) + (rest.map (fun kv => jweight kv.2)).sum := ih _
      _ ≤ stackW s + jweight kv.2 + (rest.map (fun kv => jweight kv.2)).sum := by
          have := enqueueJ_weight s kv.2
          omega
      _ = stackW s + (jweight kv.2 + (rest.map (fun kv => jweight kv.2)).sum) := by omega

theorem pushFieldsJ_weight (fields : JsonFields) (rest : List JsonVal) :
    stackW (pushFieldsJ fields rest) ≤ stackW rest + jweightF fields := by
  have := foldl_enqueueJ_weight (jfToList fields) rest
  rw [jfToList_weight] at this
  exact this

/-- The explicit-stack depth-first traversal of `extractFromNextData`:
pop a node, try candidate extraction, push arrays' items and objects'
field values, first successful extraction wins. -/
def nextDataLoop (parseDom : String → Dom) (pagePathSeg : Option String)
    (href : String) (slug : String) : List JsonVal → Option ParsedProblem
  | [] => none
  | v :: rest =>
    match v with
    | .obj fields =>
      if isCandidateF fields then
        match extractFromCandidate parseDom pagePathSeg href fields slug with
        | some p => some p
        | none => nextDataLoop parseDom pagePathSeg href slug (pushFieldsJ fields rest)
      else nextDataLoop parseDom pagePathSeg href slug (pushFieldsJ fields rest)
    | .arr items =>
      nextDataLoop parseDom pagePathSeg href slug ((jlToList items).reverse ++ rest)
    | .str _ => nextDataLoop parseDom pagePathSeg href slug rest
    | .num _ => nextDataLoop parseDom pagePathSeg href slug rest
    | .boolean _ => nextDataLoop parseDom pagePathSeg href slug rest
    | .null => nextDataLoop parseDom pagePathSeg href slug rest
termination_by stack => stackW stack
decreasing_by
  all_goals simp only [stackW_cons, stackW_append, stackW_reverse, stackW_jlToList,
    jweight]
  all_goals first
    | omega
    | exact lt_of_le_of_lt (pushFieldsJ_weight _ _) (by omega)

/-- `extractFromNextData`: reject a missing or primitive blob, seed the
stack from the blob, run the traversal; the navigated slug is computed
by `currentSlug`. -/
def extractFromNextData (parseDom : String → Dom) (pagePathSeg : Option String)
    (href : String) (nextData : Option JsonVal) : Option ParsedProblem :=
  match nextData with
  | none => none
  | some d =>
    match d with
    | .obj fs =>
      nextDataLoop parseDom pagePathSeg href (currentSlug pagePathSeg) [.obj fs]
    | .arr items =>
      nextDataLoop parseDom pagePathSeg href (currentSlug pagePathSeg)
        (jlToList items).reverse
    | _ => none

/-- Reachability in the embedded data graph: `SubJ v w` when `v` occurs
inside `w` (reflexively, through arrays and object fields). -/
inductive SubJ : JsonVal → JsonVal → Prop where
  | refl (v : JsonVal) : SubJ v v
  | inArr {v w : JsonVal} {items : JsonList} :
      w ∈ jlToList items → SubJ v w → SubJ v (.arr items)
  | inObj {v w : JsonVal} {k : String} {fields : JsonFields} :
      (k, w) ∈ jfToList fields → SubJ v w → SubJ v (.obj fields)

theorem SubJ.trans_sub {a b c : JsonVal} (h1 : SubJ a b) (h2 : SubJ b c) :
    SubJ a c := by
  induction h2 with
  | refl => exact h1
  | inArr hmem _ ih => exact SubJ.inArr hmem ih
  | inObj hmem _ ih => exact SubJ.inObj hmem ih

theorem mem_enqueueJ {x : JsonVal} {s : List JsonVal} {v : JsonVal}
    (h : x ∈ enqueueJ s v) : x ∈ s ∨ SubJ x v := by
  cases v with
  | arr items =>
    simp only [enqueueJ, List.mem_append, List.mem_reverse] at h
    rcases h with h | h
    · exact Or.inr (SubJ.inArr h (SubJ.refl x))
    · exact Or.inl h
  | obj fs =>
    simp only [enqueueJ, List.mem_cons] at h
    rcases h with h | h
    · subst h
      exact Or.inr (SubJ.refl _)
    · exact Or.inl h
  | str s2 => exact Or.inl h
  | num n => exact Or.inl h
  | boolean b => exact Or.inl h
  | null => exact Or.inl h

theorem mem_foldl_enqueueJ :
    ∀ (kvs : List (String × JsonVal)) (s : List JsonVal) (x : JsonVal),
      x ∈ kvs.foldl (fun a kv => enqueueJ a kv.2) s →
      x ∈ s ∨ ∃ kv ∈ kvs, SubJ x kv.2 := by
  intro kvs
  induction kvs with
  | nil =>
    intro s x h
    exact Or.inl h
  | cons kv rest ih =>
    intro s x h
    rcases ih _ x h with h2 | ⟨kv2, hkv2, hsub⟩
    · rcases mem_enqueueJ h2 with h3 | h3
      · exact Or.inl h3
      · exact Or.inr ⟨kv, by simp, h3⟩
    · exact Or.inr ⟨kv2, by simp [hkv2], hsub⟩

theorem mem_pushFieldsJ {fields : JsonFields} {rest : List JsonVal} {x : JsonVal}
    (h : x ∈ pushFieldsJ fields rest) :
    x ∈ rest ∨ ∃ kv ∈ jfToList fields, SubJ x kv.2 :=
  mem_foldl_enqueueJ _ _ _ h

theorem nextDataLoop_nil (parseDom : String → Dom) (pth : Option String)
    (href slug : String) : nextDataLoop parseDom pth href slug [] = none := by
  rw [nextDataLoop]

theorem nextDataLoop_obj (parseDom : String → Dom) (pth : Option String)
    (href slug : String) (fields : JsonFields) (rest : List JsonVal) :
    nextDataLoop parseDom pth href slug (.obj fields :: rest) =
      if isCandidateF fields then
        match extractFromCandidate parseDom pth href fields slug with
        | some p => some p
        | none => nextDataLoop parseDom pth href slug (pushFieldsJ fields rest)
      else nextDataLoop parseDom pth href slug (pushFieldsJ fields rest) := by
  rw [nextDataLoop]

theorem nextDataLoop_arr (parseDom : String → Dom) (pth : Option String)
    (href slug : String) (items : JsonList) (rest : List JsonVal) :
    nextDataLoop parseDom pth href slug (.arr items :: rest) =
      nextDataLoop parseDom pth href slug ((jlToList items).reverse ++ rest) := by
  rw [nextDataLoop]

theorem nextDataLoop_str (parseDom : String → Dom) (pth : Option String)
    (href slug s : String) (rest : List JsonVal) :
    nextDataLoop parseDom pth href slug (.str s :: rest) =
      nextDataLoop parseDom pth href slug rest := by
  rw [nextDataLoop]

theorem nextDataLoop_num (parseDom : String → Dom) (pth : Option String)
    (href slug : String) (n : Int) (rest : List JsonVal) :
    nextDataLoop parseDom pth href slug (.num n :: rest) =
      nextDataLoop parseDom pth href slug rest := by
  rw [nextDataLoop]

theorem nextDataLoop_boolean (parseDom : String → Dom) (pth : Option String)
    (href slug : String) (b : Bool) (rest : List JsonVal) :
    nextDataLoop parseDom pth href slug (.boolean b :: rest) =
      nextDataLoop parseDom pth href slug rest := by
  rw [nextDataLoop]

theorem nextDataLoop_null (parseDom : String → Dom) (pth : Option String)
    (href slug : String) (rest : List JsonVal) :
    nextDataLoop parseDom pth href slug (.null :: rest) =
      nextDataLoop parseDom pth href slug rest := by
  rw [nextDataLoop]

theorem nextDataLoop_all_fail (parseDom : String → Dom) (pth : Option String)
    (href slug : String) :
    ∀ n stack, stackW stack ≤ n →
      (∀ v ∈ stack, ∀ fs, SubJ (.obj fs) v → isCandidateF fs = true →
        extractFromCandidate parseDom pth href fs slug = none) →
      nextDataLoop parseDom pth href slug stack = none := by
  intro n
  induction n using Nat.strong_induction_on with
  | _ n ih =>
    intro stack hle hinv
    cases stack with
    | nil => exact nextDataLoop_nil parseDom pth href slug
    | cons v rest =>
      have hcw : stackW (v :: rest) = jweight v + stackW rest := stackW_cons v rest
      have hvp := jweight_pos v
      have hn1 : 1 ≤ n := by omega
      have hrest : ∀ x ∈ rest, ∀ fs, SubJ (.obj fs) x → isCandidateF fs = true →
          extractFromCandidate parseDom pth href fs slug = none :=
        fun x hx => hinv x (List.mem_cons_of_mem _ hx)
      cases v with
      | obj fields =>
        have hw : stackW (JsonVal.obj fields :: rest) =
            1 + jweightF fields + stackW rest := by
          rw [stackW_cons]
          rfl
        have hpw := pushFieldsJ_weight fields rest
        have hpush : ∀ x ∈ pushFieldsJ fields rest, ∀ fs, SubJ (.obj fs) x →
            isCandidateF fs = true →
            extractFromCandidate parseDom pth href fs slug = none := by
          intro x hx fs hsub hcand
          rcases mem_pushFieldsJ hx with h2 | ⟨kv, hkv, hsub2⟩
          · exact hrest x h2 fs hsub hcand
          · exact hinv (.obj fields) (by simp) fs
              (SubJ.inObj (k := kv.1) (by simpa using hkv)
                (SubJ.trans_sub hsub hsub2)) hcand
        have hrec : nextDataLoop parseDom pth href slug (pushFieldsJ fields rest) = none :=
          ih (n - 1) (by omega) _ (by omega) hpush
        rw [nextDataLoop_obj]
        by_cases hc : isCandidateF fields
        · have hself : extractFromCandidate parseDom pth href fields slug = none :=
            hinv (.obj fields) (by simp) fields (SubJ.refl _) hc
          rw [if_pos hc, hself, hrec]
        · rw [if_neg hc, hrec]
      | arr items =>
        have hw : stackW (JsonVal.arr items :: rest) =
            1 + jweightL items + stackW rest := by
          rw [stackW_cons]
          rfl
        have hw2 : stackW ((jlToList items).reverse ++ rest) =
            jweightL items + stackW rest := by
          rw [stackW_append, stackW_reverse, stackW_jlToList]
        have hpush : ∀ x ∈ (jlToList items).reverse ++ rest, ∀ fs, SubJ (.obj fs) x →
            isCandidateF fs = true →
            extractFromCandidate parseDom pth href fs slug = none := by
          intro x hx fs hsub hcand
          rcases List.mem_append.mp hx with h2 | h2
          · have hxi : x ∈ jlToList items := List.mem_reverse.mp h2
            exact hinv (.arr items) (by simp) fs
              (SubJ.trans_sub hsub (SubJ.inArr hxi (SubJ.refl x))) hcand
          · exact hrest x h2 fs hsub hcand
        rw [nextDataLoop_arr]
        exact ih (n - 1) (by omega) _ (by omega) hpush
      | str s2 =>
        have hw : jweight (JsonVal.str s2) = 1 := rfl
        rw [nextDataLoop_str]
        exact ih (n - 1) (by omega) _ (by omega) hrest
      | num n2 =>
        have hw : jweight (JsonVal.num n2) = 1 := rfl
        rw [nextDataLoop_num]
        exact ih (n - 1) (by omega) _ (by omega) hrest
      | boolean b2 =>
        have hw : jweight (JsonVal.boolean b2) = 1 := rfl
        rw [nextDataLoop_boolean]
        exact ih (n - 1) (by omega) _ (by omega) hrest
      | null =>
        have hw : jweight JsonVal.null = 1 := rfl
        rw [nextDataLoop_null]
        exact ih (n - 1) (by omega) _ (by omega) hrest

theorem extractFromCandidate_slug_mismatch
    (parseDom : String → Dom) (pth : Option String) (href : String)
    (cand : JsonFields) (slug : String)
    (hs : slug ≠ "") (h1 : candDerivedSlug cand ≠ "")
    (h2 : candDerivedSlug cand ≠ slug) :
    extractFromCandidate parseDom pth href cand slug = none := by
  cases ht : getStrF cand "title" <|> getStrF cand "questionTitle" <|> getQStr cand "title" with
  | none => simp [extractFromCandidate, ht]
  | some title =>
    by_cases htt : title = ""
    · simp [extractFromCandidate, ht, htt]
    · cases hc : getStrF cand "content" <|> getQStr cand "content" <|> getStrF cand "body" with
      | none => simp [extractFromCandidate, ht, hc, htt]
      | some content =>
        by_cases hcc : content = ""
        · simp [extractFromCandidate, ht, hc, htt, hcc]
        · have hd : toSlug ((getStrF cand "titleSlug" <|> getStrF cand "slug").getD title) =
              candDerivedSlug cand := by
            unfold candDerivedSlug
            rw [ht, Option.getD_some]
          simp only [extractFromCandidate, ht, hc, if_neg htt, if_neg hcc, hd]
          rw [if_pos ⟨hs, h1, h2⟩]

/-- C5 (amended, restricted to the structured-data extractor): when the
navigated slug is non-empty, a candidate whose own derived slug is
non-empty and different is discarded by `extractFromCandidate`, and a
structured-data graph all of whose candidate records derive such a
mismatching slug makes `extractFromNextData` return null.  (As stated
over "every extraction source" the claim fails: the DOM extractor
performs no slug check, see the counterexample.) -/
theorem slug_mismatch_discard_structured
    (parseDom : String → Dom) (pth : Option String) (href : String)
    (hs : currentSlug pth ≠ "") :
    (∀ cand, candDerivedSlug cand ≠ "" → candDerivedSlug cand ≠ currentSlug pth →
      extractFromCandidate parseDom pth href cand (currentSlug pth) = none) ∧
    (∀ g : JsonVal,
      (∀ fs, SubJ (.obj fs) g → isCandidateF fs = true →
        candDerivedSlug fs ≠ "" ∧ candDerivedSlug fs ≠ currentSlug pth) →
      extractFromNextData parseDom pth href (some g) = none) := by
  constructor
  · intro cand h1 h2
    exact extractFromCandidate_slug_mismatch parseDom pth href cand _ hs h1 h2
  · intro g hg
    have hfail : ∀ fs, SubJ (.obj fs) g → isCandidateF fs = true →
        extractFromCandidate parseDom pth href fs (currentSlug pth) = none := by
      intro fs hsub hcand
      obtain ⟨ha, hb⟩ := hg fs hsub hcand
      exact extractFromCandidate_slug_mismatch parseDom pth href fs _ hs ha hb
    cases g with
    | obj fs =>
      show nextDataLoop parseDom pth href (currentSlug pth) [.obj fs] = none
      apply nextDataLoop_all_fail parseDom pth href (currentSlug pth)
        (stackW [.obj fs]) _ le_rfl
      intro v hv fs2 hsub hcand
      have hveq : v = .obj fs := by simpa using hv
      subst hveq
      exact hfail fs2 hsub hcand
    | arr items =>
      show nextDataLoop parseDom pth href (currentSlug pth)
        (jlToList items).reverse = none
      apply nextDataLoop_all_fail parseDom pth href (currentSlug pth)
        (stackW (jlToList items).reverse) _ le_rfl
      intro v hv fs2 hsub hcand
      have hvi : v ∈ jlToList items := List.mem_reverse.mp hv
      exact hfail fs2 (SubJ.trans_sub hsub (SubJ.inArr hvi (SubJ.refl v))) hcand
    | str s => rfl
    | num n => rfl
    | boolean b => rfl
    | null => rfl

/-!
## DOM extractor (`extractFromDom`) and the page-level chain

`extractFromDom` reads the visible DOM and derives the slug from the
title with no comparison against the navigated slug.
-/

/-- Split on whitespace runs, dropping empty tokens (class list). -/
def wsSplitAux : List Char → List Char → List (List Char)
  | [], acc => if acc.isEmpty then [] else [acc.reverse]
  | c :: rest, acc =>
    if wsCharB c then
      if acc.isEmpty then wsSplitAux rest []
      else acc.reverse :: wsSplitAux rest []
    else wsSplitAux rest (c :: acc)

/-- Does the element's class attribute contain the given class token? -/
def classHas (d : Dom) (cls : String) : Bool :=
  match getAttr d "class" with
  | some c => (wsSplitAux c.data []).any (fun t => t = cls.data)
  | none => false

/-- ASCII digit test (`\d`). -/
def isDigitB (c : Char) : Bool := '0' ≤ c && c ≤ '9'

/-- JavaScript regular-expression line terminators relevant here. -/
def lineTermB (c : Char) : Bool := c = '\n' || c = '\r'

/-- Model of `rawTitle.match(/^(\d+)\.\s*(.+)$/)`: the digit prefix and
the title remainder, or none when the pattern does not match.  The
greedy-with-backtracking `\s*(.+)$` tail: the remainder after maximal
whitespace when it is non-empty and free of line terminators; when the
tail is all whitespace, backtracking leaves exactly its last character. -/
def matchNumTitle (s : List Char) : Option (List Char × List Char) :=
  let ds := s.takeWhile isDigitB
  if ds.isEmpty then none
  else
    match s.dropWhile isDigitB with
    | '.' :: t =>
      let r0 := t.dropWhile wsCharB
      if r0.isEmpty then
        match t.getLast? with
        | some c => if lineTermB c then none else some (ds, [c])
        | none => none
      else if r0.any lineTermB then none
      else some (ds, r0)
    | _ => none

/-- The elements of a document including the root, in document order
(`document.querySelector` search space). -/
def rootElems (d : Dom) : List Dom :=
  (match d with
   | .elem _ _ _ => [d]
   | .text _ => []) ++ descElemsD d

/-- `document.querySelector` by a predicate. -/
def qsFirst (doc : Dom) (p : Dom → Bool) : Option Dom :=
  ((rootElems doc).filter p).head?

mutual
def elemPairsD : Dom → List (Dom × Option Dom)
  | .text _ => []
  | .elem _ _ cs => elemPairsL cs
def elemPairsL : DomList → List (Dom × Option Dom)
  | .nil => []
  | .cons c rest =>
    (match c with
     | .elem _ _ _ => (c, firstElemL rest) :: elemPairsD c
     | .text _ => []) ++ elemPairsL rest
end

/-- Elements of a document, each paired with its next element sibling. -/
def rootPairs (doc : Dom) : List (Dom × Option Dom) :=
  (match doc with
   | .elem _ _ _ => [(doc, none)]
   | .text _ => []) ++ elemPairsD doc

/-- `document.querySelector` by a predicate, keeping the found element's
next element sibling. -/
def qsFirstPair (doc : Dom) (p : Dom → Bool) : Option (Dom × Option Dom) :=
  ((rootPairs doc).filter (fun pr => p pr.1)).head?

/-- The constraint search of `extractFromDom`, parameterized by the
content root's own next element sibling (the root's strong children have
the root as parent, whose `nextElementSibling` lives outside the
subtree). -/
def constraintsOfRoot (root : Dom) (rootNext : Option Dom) : String :=
  match (strongsIn root rootNext).find?
      (fun L => containsStr (jsToLower (textContentD L.node)).data "constraint".data) with
  | none => "Constraints not detected."
  | some L =>
    match L.parentNext with
    | some sib => if isListTag sib then listItemsText sib else jsTrim (textContentD L.parent)
    | none => jsTrim (textContentD L.parent)

/-- `findDifficulty`: the `diff` or `data-difficulty` attribute of the
first element carrying it, normalized. -/
def findDifficulty (doc : Dom) : String :=
  normalizeDifficulty
    (((qsFirst doc (fun d => (getAttr d "diff").isSome)).bind
        (fun n => getAttr n "diff")) <|>
      ((qsFirst doc (fun d => (getAttr d "data-difficulty").isSome)).bind
        (fun n => getAttr n "data-difficulty")))

/-- `extractFromDom` from the in-page scraper: title from the
`question-title` node, content from the `question-content` root, slug
derived from the title alone. -/
def extractFromDom (doc : Dom) (pagePathSeg : Option String) (href : String) :
    Option ParsedProblem :=
  match qsFirst doc (fun d => getAttr d "data-cy" = some "question-title") with
  | none => none
  | some titleNode =>
    let rawTitle := jsTrim (textContentD titleNode)
    if rawTitle = "" then none
    else
      let m := matchNumTitle rawTitle.data
      let title := match m with
        | some pr => String.mk pr.2
        | none => rawTitle
      let problemNumber := match m with
        | some pr => String.mk pr.1
        | none => pagePathSeg.getD rawTitle
      match qsFirstPair doc (fun d => getAttr d "data-cy" = some "question-content") <|>
          qsFirstPair doc (fun d => classHas d "question-content__JfgR") with
      | none => none
      | some rp =>
        let parts := descLoop (elemChildren (childrenOf rp.1))
        let joined := joinSep "\n\n" parts
        some ⟨title, findDifficulty doc,
          (if joined = "" then
            (let t := jsTrim (textContentD rp.1);
             if t = "" then "Unable to extract the problem description." else t)
          else joined),
          ((queryPres rp.1).map (fun n => jsTrim (textContentD n))).filter (fun t => t ≠ ""),
          constraintsOfRoot rp.1 rp.2, href, toSlug title, problemNumber⟩

/-- `extractFromNextData() ?? extractFromDom()` — the synchronous source
chain of `scrapeProblemInPage`. -/
def scrapePage (parseDom : String → Dom) (nextData : Option JsonVal) (doc : Dom)
    (pagePathSeg : Option String) (href : String) : Option ParsedProblem :=
  match extractFromNextData parseDom pagePathSeg href nextData with
  | some p => some p
  | none => extractFromDom doc pagePathSeg href

/-- A stand-in for `DOMParser.parseFromString` used at concrete inputs. -/
def parseDomStub : String → Dom := fun _ => .elem "body" [] .nil

/-- A document whose visible title derives the slug "two-sum" while the
navigated slug is "three-sum". -/
def exDomDoc : Dom :=
  .elem "html" []
    (domListOf
      [.elem "body" []
        (domListOf
          [.elem "div" [("data-cy", "question-title")] (domListOf [.text "Two Sum"]),
            .elem "div" [("data-cy", "question-content")]
              (domListOf [.elem "p" [] (domListOf [.text "desc"])])])])

/-- Counterexample for C5 as stated: the DOM extraction source does not
discard a candidate whose derived slug ("two-sum") differs from the
non-empty navigated slug ("three-sum"); the mismatched record is
returned and merged into the page scrape result. -/
theorem slug_mismatch_dom_counterexample :
    currentSlug (some "three-sum") = "three-sum" ∧
    extractFromDom exDomDoc (some "three-sum")
        "https://leetcode.com/problems/three-sum/" =
      some ⟨"Two Sum", "Medium", "desc", [], "Constraints not detected.",
        "https://leetcode.com/problems/three-sum/", "two-sum", "three-sum"⟩ ∧
    scrapePage parseDomStub none exDomDoc (some "three-sum")
        "https://leetcode.com/problems/three-sum/" =
      some ⟨"Two Sum", "Medium", "desc", [], "Constraints not detected.",
        "https://leetcode.com/problems/three-sum/", "two-sum", "three-sum"⟩ ∧
    ("two-sum" : String) ≠ "three-sum" := by
  decide

theorem subj_no_str {v : JsonVal} {s : String} (h : SubJ v (.str s)) :
    v = .str s := by
  cases h
  rfl

/-- A candidate record whose derived slug is "two-sum". -/
def exCand : JsonFields :=
  .cons "title" (.str "Two Sum")
    (.cons "content" (.str "x") (.cons "titleSlug" (.str "two-sum") .nil))

/-- Witness for the amended C5: with navigated slug "three-sum", the
mismatching candidate is discarded and a graph holding only that
candidate extracts to null. -/
theorem slug_mismatch_discard_structured_witness :
    extractFromCandidate parseDomStub (some "three-sum")
        "https://leetcode.com/problems/three-sum/" exCand
        (currentSlug (some "three-sum")) = none ∧
    extractFromNextData parseDomStub (some "three-sum")
        "https://leetcode.com/problems/three-sum/" (some (.obj exCand)) = none := by
  constructor
  · exact (slug_mismatch_discard_structured parseDomStub (some "three-sum")
        "https://leetcode.com/problems/three-sum/" (by decide)).1 exCand
      (by decide) (by decide)
  · apply (slug_mismatch_discard_structured parseDomStub (some "three-sum")
        "https://leetcode.com/problems/three-sum/" (by decide)).2 (.obj exCand)
    intro fs hsub hcand
    have hfs : fs = exCand := by
      cases hsub with
      | refl => rfl
      | inObj hmem hsub2 =>
        simp only [exCand, jfToList, List.mem_cons, List.not_mem_nil, or_false,
          Prod.mk.injEq] at hmem
        rcases hmem with ⟨h1, h2⟩ | ⟨h1, h2⟩ | ⟨h1, h2⟩
        all_goals rw [h2] at hsub2
        all_goals exact JsonVal.noConfusion (subj_no_str hsub2)
    subst hfs
    exact ⟨by decide, by decide⟩
